import Mathlib

/-!
Verification of the order-preserving `RawMap` container (meilisearch/raw-collections).

The map stores an ordered sequence `data` of `(key, raw JSON fragment)` pairs
together with a hash index `cache` mapping each key to its position in `data`.
We embed `data` as a Lean `List` and the hash index as an association list with
unique keys; keys and raw fragments are both strings (fragments are opaque).

The `unwrap()` in the occupied branch of `insert` is modelled by making `insert`
return an `Option`: `none` models the panic, which we prove unreachable on maps
built through the public API.
-/

abbrev Key := String

abbrev RawValue := String

/-- Shallow embedding of `RawMap`: `data` is the ordered store, `cache` the
key-to-position index (an association list standing in for the hash map). -/
structure RawMap where
  data : List (Key × RawValue)
  cache : List (Key × Nat)
deriving DecidableEq

/-- `RawMap::new_in`: the empty map. -/
def RawMap.new_in : RawMap := ⟨[], []⟩

/-- Lookup in the modelled hash map: first (hence, under key uniqueness, only)
entry whose key matches. Models `hashbrown::HashMap::get`. -/
def cacheGet (cache : List (Key × Nat)) (key : Key) : Option Nat :=
  (cache.find? fun p => p.1 == key).map Prod.snd

/-- `RawMap::insert`. The occupied branch replaces the value component at the
cached position via `mem::replace` and returns the previous value; the
`data.get_mut(*index).unwrap()` panic is modelled by the outer `none`.
The vacant branch appends the entry at position `len()` and records the
mapping, returning nothing. -/
def RawMap.insert (m : RawMap) (key : Key) (value : RawValue) :
    Option (Option RawValue × RawMap) :=
  match cacheGet m.cache key with
  | some index =>
    match m.data.get? index with
    | some pair =>
      some (some pair.2, { m with data := m.data.set index (pair.1, value) })
    | none => none
  | none =>
    some (none, ⟨m.data ++ [(key, value)], m.cache ++ [(key, m.data.length)]⟩)

/-- `RawMap::get`: look up the cached index, then read the value from `data`
(an out-of-range index yields `None`, as `slice::get` does). -/
def RawMap.get (m : RawMap) (key : Key) : Option RawValue :=
  (cacheGet m.cache key).bind fun index => (m.data.get? index).map Prod.snd

/-- `RawMap::get_index`: the cached position of a key, if present. -/
def RawMap.get_index (m : RawMap) (key : Key) : Option Nat :=
  cacheGet m.cache key

/-- `RawMap::reserve`: only grows capacity, which is unobservable in the
embedding, so it is the identity on the logical state. -/
def RawMap.reserve (m : RawMap) (_additional : Nat) : RawMap := m

/-- `RawMap::len`. -/
def RawMap.len (m : RawMap) : Nat := m.data.length

/-- `RawMap::is_empty`. -/
def RawMap.is_empty (m : RawMap) : Bool := m.data.isEmpty

/-- `RawMap::as_slice`. -/
def RawMap.as_slice (m : RawMap) : List (Key × RawValue) := m.data

/-- The positions of the keys of `data`, counting from `i`: the contents the
cache must have for a map whose invariants hold. -/
def enumKeysFrom (i : Nat) : List (Key × RawValue) → List (Key × Nat)
  | [] => []
  | kv :: rest => (kv.1, i) :: enumKeysFrom (i + 1) rest

/-- Position of the first entry with the given key, if any. -/
def findKeyIdx (key : Key) : List (Key × RawValue) → Option Nat
  | [] => none
  | kv :: rest => if kv.1 == key then some 0 else (findKeyIdx key rest).map (· + 1)

/-- The representation invariant of `RawMap`: the cache is exactly the
key-to-position enumeration of `data`, and no two entries of `data` share a
key. -/
def RawMap.WF (m : RawMap) : Prop :=
  m.cache = enumKeysFrom 0 m.data ∧ (m.data.map Prod.fst).Nodup

instance (m : RawMap) : Decidable m.WF := by
  unfold RawMap.WF; infer_instance

/-- Maps reachable through the public API: empty construction, `insert` (when
it does not panic) and `reserve`. -/
inductive RawMap.Reachable : RawMap → Prop
  | empty : RawMap.Reachable RawMap.new_in
  | insert {m : RawMap} {k : Key} {v : RawValue} {r : Option RawValue} {m' : RawMap} :
      RawMap.Reachable m → m.insert k v = some (r, m') → RawMap.Reachable m'
  | reserve {m : RawMap} (n : Nat) : RawMap.Reachable m → RawMap.Reachable (m.reserve n)

/-- Runs a sequence of `insert` calls, propagating the (never-reached) panic. -/
def applyInserts : RawMap → List (Key × RawValue) → Option RawMap
  | m, [] => some m
  | m, (k, v) :: rest =>
    match m.insert k v with
    | some (_, m') => applyInserts m' rest
    | none => none

/-- The keys of a list in order of first occurrence, skipping keys already in
`seen`. -/
def firstOccurAux (seen : List Key) : List Key → List Key
  | [] => []
  | k :: rest =>
    if k ∈ seen then firstOccurAux seen rest else k :: firstOccurAux (k :: seen) rest

/-- Order of first occurrence of each distinct key. -/
def firstOccur (l : List Key) : List Key := firstOccurAux [] l

/-- Shallow embedding of `FrozenRawMap`: a read-only snapshot of `data` and of
the cache taken at freeze time. -/
structure FrozenRawMap where
  data : List (Key × RawValue)
  cache : List (Key × Nat)
deriving DecidableEq

/-- `RawMap::freeze` / `FrozenRawMap::new`: snapshot the data slice and wrap
the cache. Modelled from the spec: the `frozen` module holding `FrozenMap` is
not under src/; per the spec the frozen view is a non-owning read-only borrow
of the map's data slice and cache, so freezing captures both unchanged. -/
def RawMap.freeze (m : RawMap) : FrozenRawMap := ⟨m.data, m.cache⟩

/-- `FrozenRawMap::get`, per src/src/map.rs: cache lookup then slice read.
Modelled from the spec: `FrozenMap::get` (module `frozen`, absent from src/)
has identical lookup semantics to the map's hash index, read-only. -/
def FrozenRawMap.get (f : FrozenRawMap) (key : Key) : Option RawValue :=
  (cacheGet f.cache key).bind fun index => (f.data.get? index).map Prod.snd

/-- `FrozenRawMap::get_index`. Modelled from the spec for the `FrozenMap`
lookup, as for `FrozenRawMap.get`. -/
def FrozenRawMap.get_index (f : FrozenRawMap) (key : Key) : Option Nat :=
  cacheGet f.cache key

/-- `FrozenRawMap::len`. -/
def FrozenRawMap.len (f : FrozenRawMap) : Nat := f.data.length

/-- `FrozenRawMap::is_empty`. -/
def FrozenRawMap.is_empty (f : FrozenRawMap) : Bool := f.data.isEmpty

/-- `FrozenRawMap::as_slice`. -/
def FrozenRawMap.as_slice (f : FrozenRawMap) : List (Key × RawValue) := f.data

/-- `RawMap::from_raw_value`. Modelled from the spec: the `de` module
implementing `from_deserializer` is not under src/; per the spec, construction
from a JSON object fragment enumerates the object's members in source order as
arena-borrowed `(key, raw fragment)` pairs and inserts each pair via the same
rule as `insert`, starting from the empty map. The argument is the member
sequence the external tokenizer produces. -/
def RawMap.from_raw_value (pairs : List (Key × RawValue)) : Option RawMap :=
  applyInserts RawMap.new_in pairs

/-! ### Basic lemmas about the cache model -/

theorem cacheGet_nil (key : Key) : cacheGet [] key = none := rfl

theorem cacheGet_cons (kp : Key × Nat) (c : List (Key × Nat)) (key : Key) :
    cacheGet (kp :: c) key = if kp.1 == key then some kp.2 else cacheGet c key := by
  simp only [cacheGet, List.find?]
  cases h : (kp.1 == key) <;> simp [h]

theorem cacheGet_append_some {c : List (Key × Nat)} {key : Key} {p : Nat}
    (h : cacheGet c key = some p) (c2 : List (Key × Nat)) :
    cacheGet (c ++ c2) key = some p := by
  induction c with
  | nil => simp [cacheGet_nil] at h
  | cons kp rest ih =>
    rw [cacheGet_cons] at h
    rw [List.cons_append, cacheGet_cons]
    cases hb : (kp.1 == key)
    · simp only [hb, Bool.false_eq_true, if_false] at h ⊢
      exact ih h
    · simp only [hb, if_true] at h ⊢
      exact h

theorem cacheGet_append_single_self {c : List (Key × Nat)} {key : Key}
    (h : cacheGet c key = none) (j : Nat) :
    cacheGet (c ++ [(key, j)]) key = some j := by
  induction c with
  | nil => simp [cacheGet_cons, cacheGet_nil]
  | cons kp rest ih =>
    rw [cacheGet_cons] at h
    rw [List.cons_append, cacheGet_cons]
    cases hb : (kp.1 == key)
    · simp only [hb, Bool.false_eq_true, if_false] at h ⊢
      exact ih h
    · simp [hb] at h

theorem cacheGet_append_single_ne {c : List (Key × Nat)} {key : Key}
    (h : cacheGet c key = none) {k2 : Key} (hne : k2 ≠ key) (j : Nat) :
    cacheGet (c ++ [(k2, j)]) key = none := by
  induction c with
  | nil =>
    have hb : (k2 == key) = false := beq_eq_false_iff_ne.mpr hne
    simp [cacheGet_cons, cacheGet_nil, hb]
  | cons kp rest ih =>
    rw [cacheGet_cons] at h
    rw [List.cons_append, cacheGet_cons]
    cases hb : (kp.1 == key)
    · simp only [hb, Bool.false_eq_true, if_false] at h ⊢
      exact ih h
    · simp [hb] at h

theorem cacheGet_enumKeysFrom (l : List (Key × RawValue)) (i : Nat) (key : Key) :
    cacheGet (enumKeysFrom i l) key = (findKeyIdx key l).map (fun j => i + j) := by
  induction l generalizing i with
  | nil => simp [enumKeysFrom, findKeyIdx, cacheGet_nil]
  | cons kv rest ih =>
    rw [enumKeysFrom, cacheGet_cons, findKeyIdx]
    cases hb : (kv.1 == key)
    · simp only [hb, Bool.false_eq_true, if_false, ih (i + 1), Option.map_map]
      cases hf : findKeyIdx key rest <;> simp [Function.comp, Nat.add_assoc, Nat.add_comm 1]
    · simp [hb]

theorem findKeyIdx_lt_length {key : Key} {l : List (Key × RawValue)} {j : Nat}
    (h : findKeyIdx key l = some j) : j < l.length := by
  induction l generalizing j with
  | nil => simp [findKeyIdx] at h
  | cons kv rest ih =>
    rw [findKeyIdx] at h
    cases hb : (kv.1 == key)
    · simp only [hb, Bool.false_eq_true, if_false] at h
      cases hf : findKeyIdx key rest with
      | none => simp [hf] at h
      | some j' =>
        rw [hf] at h; simp only [Option.map_some', Option.some_inj] at h
        have := ih hf
        rw [List.length_cons]
        omega
    · simp only [hb, if_true, Option.some_inj] at h
      simp [← h]

theorem findKeyIdx_get {key : Key} {l : List (Key × RawValue)} {j : Nat}
    (h : findKeyIdx key l = some j) : ∃ v, l.get? j = some (key, v) := by
  induction l generalizing j with
  | nil => simp [findKeyIdx] at h
  | cons kv rest ih =>
    rw [findKeyIdx] at h
    cases hb : (kv.1 == key)
    · simp only [hb, Bool.false_eq_true, if_false] at h
      cases hf : findKeyIdx key rest with
      | none => simp [hf] at h
      | some j' =>
        rw [hf] at h; simp only [Option.map_some', Option.some_inj] at h
        obtain ⟨v, hv⟩ := ih hf
        refine ⟨v, ?_⟩
        rw [← h]
        simpa using hv
    · simp only [hb, if_true, Option.some_inj] at h
      have hk : kv.1 = key := by simpa using hb
      exact ⟨kv.2, by simp [← h, ← hk]⟩

theorem findKeyIdx_eq_none_iff {key : Key} {l : List (Key × RawValue)} :
    findKeyIdx key l = none ↔ key ∉ l.map Prod.fst := by
  induction l with
  | nil => simp [findKeyIdx]
  | cons kv rest ih =>
    rw [findKeyIdx]
    cases hb : (kv.1 == key)
    · have hk : kv.1 ≠ key := by simpa using hb
      simp [hb, ih, Ne.symm hk]
    · have hk : kv.1 = key := by simpa using hb
      simp [hb, hk]

theorem enumKeysFrom_length (l : List (Key × RawValue)) (i : Nat) :
    (enumKeysFrom i l).length = l.length := by
  induction l generalizing i with
  | nil => rfl
  | cons kv rest ih => simp [enumKeysFrom, ih]

theorem enumKeysFrom_append_single (l : List (Key × RawValue)) (i : Nat)
    (x : Key × RawValue) :
    enumKeysFrom i (l ++ [x]) = enumKeysFrom i l ++ [(x.1, i + l.length)] := by
  induction l generalizing i with
  | nil => simp [enumKeysFrom]
  | cons kv rest ih =>
    rw [List.cons_append, enumKeysFrom, ih (i + 1), enumKeysFrom, List.length_cons,
      List.cons_append]
    have harith : i + 1 + rest.length = i + (rest.length + 1) := by omega
    rw [harith]

theorem enumKeysFrom_set {l : List (Key × RawValue)} {j : Nat} {kv : Key × RawValue}
    (h : l.get? j = some kv) (v : RawValue) (i : Nat) :
    enumKeysFrom i (l.set j (kv.1, v)) = enumKeysFrom i l := by
  induction l generalizing i j with
  | nil => simp at h
  | cons hd rest ih =>
    cases j with
    | zero =>
      simp only [List.get?_cons_zero, Option.some_inj] at h
      simp [List.set, enumKeysFrom, h]
    | succ j' =>
      simp only [List.get?_cons_succ] at h
      simp [List.set, enumKeysFrom, ih h]

theorem map_fst_set {l : List (Key × RawValue)} {j : Nat} {kv : Key × RawValue}
    (h : l.get? j = some kv) (v : RawValue) :
    (l.set j (kv.1, v)).map Prod.fst = l.map Prod.fst := by
  induction l generalizing j with
  | nil => simp at h
  | cons hd rest ih =>
    cases j with
    | zero =>
      simp only [List.get?_cons_zero, Option.some_inj] at h
      simp [List.set, h]
    | succ j' =>
      simp only [List.get?_cons_succ] at h
      simp [List.set, ih h]

/-! ### The insert branches and preservation of the invariant -/

theorem RawMap.cacheGet_of_WF {m : RawMap} (h : m.WF) (key : Key) :
    cacheGet m.cache key = findKeyIdx key m.data := by
  rw [h.1, cacheGet_enumKeysFrom]
  cases hf : findKeyIdx key m.data <;> simp

theorem RawMap.insert_vacant {m : RawMap} {key : Key} (v : RawValue)
    (h : cacheGet m.cache key = none) :
    m.insert key v =
      some (none, ⟨m.data ++ [(key, v)], m.cache ++ [(key, m.data.length)]⟩) := by
  simp [RawMap.insert, h]

theorem RawMap.insert_occupied {m : RawMap} {key : Key} {i : Nat} {kv : Key × RawValue}
    (hc : cacheGet m.cache key = some i) (hd : m.data.get? i = some kv) (v : RawValue) :
    m.insert key v = some (some kv.2, ⟨m.data.set i (kv.1, v), m.cache⟩) := by
  have hd2 : m.data[i]? = some kv := by simpa using hd
  simp [RawMap.insert, hc, hd2]

theorem RawMap.WF_new_in : RawMap.new_in.WF := ⟨rfl, List.nodup_nil⟩

theorem RawMap.WF_insert {m : RawMap} {key : Key} {v : RawValue} {r : Option RawValue}
    {m' : RawMap} (hwf : m.WF) (h : m.insert key v = some (r, m')) : m'.WF := by
  cases hc : cacheGet m.cache key with
  | none =>
    rw [RawMap.insert_vacant v hc] at h
    have hm' : m' = ⟨m.data ++ [(key, v)], m.cache ++ [(key, m.data.length)]⟩ := by
      injection h with h1
      injection h1 with h2 h3
      exact h3.symm
    subst hm'
    have hk : key ∉ m.data.map Prod.fst := by
      refine findKeyIdx_eq_none_iff.mp ?_
      rw [← RawMap.cacheGet_of_WF hwf]
      exact hc
    refine ⟨?_, ?_⟩
    · show m.cache ++ [(key, m.data.length)] = enumKeysFrom 0 (m.data ++ [(key, v)])
      rw [enumKeysFrom_append_single, ← hwf.1]
      simp
    · show ((m.data ++ [(key, v)]).map Prod.fst).Nodup
      rw [List.map_append, List.nodup_append]
      exact ⟨hwf.2, List.nodup_singleton key, by simp [List.disjoint_singleton, hk]⟩
  | some i =>
    have hfi : findKeyIdx key m.data = some i := by
      rw [← RawMap.cacheGet_of_WF hwf]
      exact hc
    obtain ⟨v0, hv0⟩ := findKeyIdx_get hfi
    rw [RawMap.insert_occupied hc hv0 v] at h
    have hm' : m' = ⟨m.data.set i (key, v), m.cache⟩ := by
      injection h with h1
      injection h1 with h2 h3
      exact h3.symm
    subst hm'
    refine ⟨?_, ?_⟩
    · exact hwf.1.trans (enumKeysFrom_set hv0 v 0).symm
    · show ((m.data.set i (key, v)).map Prod.fst).Nodup
      have := map_fst_set hv0 v
      simp only at this
      rw [this]
      exact hwf.2

theorem RawMap.Reachable.wf {m : RawMap} (h : m.Reachable) : m.WF := by
  induction h with
  | empty => exact RawMap.WF_new_in
  | insert hre hins ih => exact RawMap.WF_insert ih hins
  | reserve n hre ih => exact ih

theorem list_set_concat_length {α : Type} (l : List α) (a b : α) :
    (l ++ [a]).set l.length b = l ++ [b] := by
  induction l with
  | nil => rfl
  | cons hd rest ih => simp [List.set, ih]

theorem list_get?_concat_length {α : Type} (l : List α) (a : α) :
    (l ++ [a]).get? l.length = some a := by
  induction l with
  | nil => rfl
  | cons hd rest ih => simp only [List.cons_append, List.length_cons, List.get?_cons_succ, ih]

/-- Claim C1: on a key not present, `insert(k, v1)` appends the entry at
position `len()` and returns nothing; a subsequent `insert(k, v2)` overwrites
the value at the existing position, leaves the position and iteration order
unchanged, returns the previous value `v1`, and afterwards `get(k)` returns
`v2`. -/
theorem claim_C1_insert_semantics (m : RawMap) (k : Key) (v1 v2 : RawValue)
    (habs : m.get_index k = none) :
    ∃ m1 m2 : RawMap,
      m.insert k v1 = some (none, m1) ∧
      m1.as_slice = m.as_slice ++ [(k, v1)] ∧
      m1.get_index k = some m.len ∧
      m1.insert k v2 = some (some v1, m2) ∧
      m2.get_index k = m1.get_index k ∧
      m2.as_slice.map Prod.fst = m1.as_slice.map Prod.fst ∧
      m2.get k = some v2 := by
  have habs2 : cacheGet m.cache k = none := habs
  have h1 := RawMap.insert_vacant v1 habs2
  have hc1 : cacheGet (m.cache ++ [(k, m.data.length)]) k = some m.data.length :=
    cacheGet_append_single_self habs2 m.data.length
  refine ⟨⟨m.data ++ [(k, v1)], m.cache ++ [(k, m.data.length)]⟩,
    ⟨m.data ++ [(k, v2)], m.cache ++ [(k, m.data.length)]⟩, h1, rfl, hc1, ?_, rfl, ?_, ?_⟩
  · have hget : (m.data ++ [(k, v1)]).get? m.data.length = some (k, v1) :=
      list_get?_concat_length m.data (k, v1)
    have hocc := RawMap.insert_occupied
      (m := ⟨m.data ++ [(k, v1)], m.cache ++ [(k, m.data.length)]⟩) hc1 hget v2
    rw [hocc]
    simp [list_set_concat_length]
  · show (m.data ++ [(k, v2)]).map Prod.fst = (m.data ++ [(k, v1)]).map Prod.fst
    simp
  · show RawMap.get ⟨m.data ++ [(k, v2)], m.cache ++ [(k, m.data.length)]⟩ k = some v2
    rw [RawMap.get]
    have hget2 := list_get?_concat_length m.data (k, v2)
    simp [hc1, hget2]

/-- Witness for claim C1 at the empty map, key a, values 1 then 2. -/
theorem claim_C1_insert_semantics_witness :
    RawMap.new_in.get_index "a" = none ∧
    (∃ m1 m2 : RawMap,
      RawMap.new_in.insert "a" "1" = some (none, m1) ∧
      m1.as_slice = RawMap.new_in.as_slice ++ [("a", "1")] ∧
      m1.get_index "a" = some RawMap.new_in.len ∧
      m1.insert "a" "2" = some (some "1", m2) ∧
      m2.get_index "a" = m1.get_index "a" ∧
      m2.as_slice.map Prod.fst = m1.as_slice.map Prod.fst ∧
      m2.get "a" = some "2") :=
  ⟨rfl, claim_C1_insert_semantics RawMap.new_in "a" "1" "2" rfl⟩

/-! ### Iteration order: first-occurrence order of distinct keys -/

theorem firstOccurAux_congr {s1 s2 : List Key} (h : ∀ x, x ∈ s1 ↔ x ∈ s2)
    (l : List Key) : firstOccurAux s1 l = firstOccurAux s2 l := by
  induction l generalizing s1 s2 with
  | nil => rfl
  | cons k rest ih =>
    rw [firstOccurAux, firstOccurAux]
    by_cases hk : k ∈ s1
    · rw [if_pos hk, if_pos ((h k).mp hk)]
      exact ih h
    · rw [if_neg hk, if_neg (fun hc => hk ((h k).mpr hc))]
      rw [@ih (k :: s1) (k :: s2) (fun x => by simp [h x])]

theorem applyInserts_spec {m : RawMap} (hwf : m.WF) (ops : List (Key × RawValue)) :
    ∃ m' : RawMap, applyInserts m ops = some m' ∧ m'.WF ∧
      m'.data.map Prod.fst =
        m.data.map Prod.fst ++ firstOccurAux (m.data.map Prod.fst) (ops.map Prod.fst) := by
  induction ops generalizing m with
  | nil => exact ⟨m, rfl, hwf, by simp [firstOccurAux]⟩
  | cons op rest ih =>
    obtain ⟨k, v⟩ := op
    by_cases hk : k ∈ m.data.map Prod.fst
    · have hfi : findKeyIdx k m.data ≠ none := fun hn => findKeyIdx_eq_none_iff.mp hn hk
      obtain ⟨i, hi⟩ := Option.ne_none_iff_exists'.mp hfi
      have hc : cacheGet m.cache k = some i := by
        rw [RawMap.cacheGet_of_WF hwf]
        exact hi
      obtain ⟨v0, hv0⟩ := findKeyIdx_get hi
      have hins := RawMap.insert_occupied hc hv0 v
      have hwf1 : RawMap.WF ⟨m.data.set i ((k, v0).1, v), m.cache⟩ :=
        RawMap.WF_insert hwf hins
      obtain ⟨m', h1, h2, h3⟩ := ih hwf1
      refine ⟨m', ?_, h2, ?_⟩
      · simp only [applyInserts, hins]
        exact h1
      · have hset := map_fst_set hv0 v
        simp only at hset h3 ⊢
        rw [h3, hset, List.map_cons, firstOccurAux, if_pos hk]
    · have hc : cacheGet m.cache k = none := by
        rw [RawMap.cacheGet_of_WF hwf]
        exact findKeyIdx_eq_none_iff.mpr hk
      have hins := RawMap.insert_vacant v hc
      have hwf1 : RawMap.WF ⟨m.data ++ [(k, v)], m.cache ++ [(k, m.data.length)]⟩ :=
        RawMap.WF_insert hwf hins
      obtain ⟨m', h1, h2, h3⟩ := ih hwf1
      refine ⟨m', ?_, h2, ?_⟩
      · simp only [applyInserts, hins]
        exact h1
      · simp only [List.map_append, List.map_cons, List.map_nil] at h3
        have hcon := @firstOccurAux_congr (m.data.map Prod.fst ++ [k])
          (k :: m.data.map Prod.fst) (fun x => by simp [or_comm]) (rest.map Prod.fst)
        have hgoal : ((k, v) :: rest).map Prod.fst = k :: rest.map Prod.fst := rfl
        rw [h3, hgoal, firstOccurAux, if_neg hk, List.append_assoc, hcon]
        simp

/-- Claim C2: for every sequence of insert calls applied to an initially empty
map, the key order of `as_slice()` equals the order of first occurrence of
each distinct key in the call sequence; re-inserting an existing key never
moves its entry. -/
theorem claim_C2_first_occurrence_order (ops : List (Key × RawValue)) :
    ∃ m : RawMap, applyInserts RawMap.new_in ops = some m ∧
      m.as_slice.map Prod.fst = firstOccur (ops.map Prod.fst) := by
  obtain ⟨m, h1, h2, h3⟩ := applyInserts_spec RawMap.WF_new_in ops
  refine ⟨m, h1, ?_⟩
  simpa [firstOccur, RawMap.as_slice, RawMap.new_in] using h3

/-! ### Invariant claims over reachable maps -/

theorem mem_enumKeysFrom {kp : Key × Nat} {l : List (Key × RawValue)} {i : Nat}
    (h : kp ∈ enumKeysFrom i l) : kp.2 < i + l.length := by
  induction l generalizing i with
  | nil => simp [enumKeysFrom] at h
  | cons kv rest ih =>
    rw [enumKeysFrom] at h
    rcases List.mem_cons.mp h with h1 | h2
    · rw [h1]
      simp only [List.length_cons]
      omega
    · have := ih h2
      simp only [List.length_cons]
      omega

/-- Claim C3: for every reachable map, if `get_index(k)` returns `Some p` then
`p < len()` and the entry of `as_slice()` at position `p` carries the key `k`:
the cache always points at the entry in `data` holding the same key. -/
theorem claim_C3_index_consistency {m : RawMap} (hre : m.Reachable) {k : Key} {p : Nat}
    (h : m.get_index k = some p) :
    p < m.len ∧ (m.as_slice.get? p).map Prod.fst = some k := by
  have hwf := hre.wf
  have hfi : findKeyIdx k m.data = some p := by
    rw [← RawMap.cacheGet_of_WF hwf]
    exact h
  refine ⟨findKeyIdx_lt_length hfi, ?_⟩
  obtain ⟨v, hv⟩ := findKeyIdx_get hfi
  show (m.data.get? p).map Prod.fst = some k
  rw [hv]
  rfl

/-- Witness for claim C3 on the reachable one-entry map holding key a. -/
theorem claim_C3_index_consistency_witness :
    RawMap.Reachable (⟨[("a", "1")], [("a", 0)]⟩ : RawMap) ∧
    (⟨[("a", "1")], [("a", 0)]⟩ : RawMap).get_index "a" = some 0 ∧
    (0 < (⟨[("a", "1")], [("a", 0)]⟩ : RawMap).len ∧
      ((⟨[("a", "1")], [("a", 0)]⟩ : RawMap).as_slice.get? 0).map Prod.fst = some "a") := by
  have hre : RawMap.Reachable (⟨[("a", "1")], [("a", 0)]⟩ : RawMap) :=
    RawMap.Reachable.insert RawMap.Reachable.empty rfl
  exact ⟨hre, rfl, claim_C3_index_consistency hre rfl⟩

/-- Claim C7: for every reachable map, the cache and the data sequence have
the same number of entries; every operation preserves this. -/
theorem claim_C7_cache_len_eq_data_len {m : RawMap} (hre : m.Reachable) :
    m.cache.length = m.data.length := by
  rw [hre.wf.1, enumKeysFrom_length]

/-- Witness for claim C7 on a reachable one-entry map. -/
theorem claim_C7_cache_len_eq_data_len_witness :
    RawMap.Reachable (⟨[("b", "7")], [("b", 0)]⟩ : RawMap) ∧
    (⟨[("b", "7")], [("b", 0)]⟩ : RawMap).cache.length =
      (⟨[("b", "7")], [("b", 0)]⟩ : RawMap).data.length := by
  have hre : RawMap.Reachable (⟨[("b", "7")], [("b", 0)]⟩ : RawMap) :=
    RawMap.Reachable.insert RawMap.Reachable.empty rfl
  exact ⟨hre, claim_C7_cache_len_eq_data_len hre⟩

/-- Claim C8: for every reachable map, no two distinct positions of
`as_slice()` hold the same key. -/
theorem claim_C8_no_duplicate_keys {m : RawMap} (hre : m.Reachable) {p q : Nat}
    {kp kq : Key × RawValue} (hp : m.as_slice.get? p = some kp)
    (hq : m.as_slice.get? q = some kq) (hne : p ≠ q) : kp.1 ≠ kq.1 := by
  have hnd := hre.wf.2
  intro heq
  apply hne
  have hp0 : m.data.get? p = some kp := hp
  have hq0 : m.data.get? q = some kq := hq
  have hp2 : (m.data.map Prod.fst).get? p = some kp.1 := by
    rw [List.get?_map, hp0]
    rfl
  have hq2 : (m.data.map Prod.fst).get? q = some kq.1 := by
    rw [List.get?_map, hq0]
    rfl
  rw [heq] at hp2
  have hplt : p < (m.data.map Prod.fst).length := by
    by_contra hge
    rw [List.get?_eq_none.mpr (Nat.le_of_not_lt hge)] at hp2
    exact Option.noConfusion hp2
  exact List.get?_inj hplt hnd (hp2.trans hq2.symm)

/-- Witness for claim C8 on a reachable two-entry map with keys a and b. -/
theorem claim_C8_no_duplicate_keys_witness :
    RawMap.Reachable (⟨[("a", "1"), ("b", "2")], [("a", 0), ("b", 1)]⟩ : RawMap) ∧
    (⟨[("a", "1"), ("b", "2")], [("a", 0), ("b", 1)]⟩ : RawMap).as_slice.get? 0 =
      some ("a", "1") ∧
    (⟨[("a", "1"), ("b", "2")], [("a", 0), ("b", 1)]⟩ : RawMap).as_slice.get? 1 =
      some ("b", "2") ∧
    (0 : Nat) ≠ 1 ∧ ("a", "1").1 ≠ ("b", "2").1 := by
  have h1 : RawMap.new_in.insert "a" "1" =
      some (none, (⟨[("a", "1")], [("a", 0)]⟩ : RawMap)) := by decide
  have h2 : (⟨[("a", "1")], [("a", 0)]⟩ : RawMap).insert "b" "2" =
      some (none, (⟨[("a", "1"), ("b", "2")], [("a", 0), ("b", 1)]⟩ : RawMap)) := by decide
  have hre : RawMap.Reachable (⟨[("a", "1"), ("b", "2")], [("a", 0), ("b", 1)]⟩ : RawMap) :=
    RawMap.Reachable.insert (RawMap.Reachable.insert RawMap.Reachable.empty h1) h2
  exact ⟨hre, rfl, rfl, by decide,
    @claim_C8_no_duplicate_keys _ hre 0 1 ("a", "1") ("b", "2") rfl rfl (by decide)⟩

/-- Claim C10: for every reachable map, every index stored in the cache is in
bounds for `data`; hence the `unwrap()` in the occupied branch of `insert`
never panics (insert always returns a result) and in `get` the data lookup
never fails once the cache lookup has succeeded. -/
theorem claim_C10_cache_indices_in_bounds {m : RawMap} (hre : m.Reachable) :
    (∀ kp ∈ m.cache, kp.2 < m.data.length) ∧
    (∀ (k : Key) (v : RawValue), (m.insert k v).isSome) ∧
    (∀ (k : Key) (i : Nat), cacheGet m.cache k = some i → (m.data.get? i).isSome) := by
  have hwf := hre.wf
  refine ⟨?_, ?_, ?_⟩
  · intro kp hkp
    rw [hwf.1] at hkp
    have := mem_enumKeysFrom hkp
    omega
  · intro k v
    cases hc : cacheGet m.cache k with
    | none =>
      rw [RawMap.insert_vacant v hc]
      rfl
    | some i =>
      have hfi : findKeyIdx k m.data = some i := by
        rw [← RawMap.cacheGet_of_WF hwf]
        exact hc
      obtain ⟨v0, hv0⟩ := findKeyIdx_get hfi
      rw [RawMap.insert_occupied hc hv0 v]
      rfl
  · intro k i hci
    have hfi : findKeyIdx k m.data = some i := by
      rw [← RawMap.cacheGet_of_WF hwf]
      exact hci
    obtain ⟨v0, hv0⟩ := findKeyIdx_get hfi
    rw [hv0]
    rfl

/-- Witness for claim C10 on a reachable one-entry map. -/
theorem claim_C10_cache_indices_in_bounds_witness :
    RawMap.Reachable (⟨[("c", "9")], [("c", 0)]⟩ : RawMap) ∧
    ((∀ kp ∈ (⟨[("c", "9")], [("c", 0)]⟩ : RawMap).cache,
        kp.2 < (⟨[("c", "9")], [("c", 0)]⟩ : RawMap).data.length) ∧
      (∀ (k : Key) (v : RawValue),
        ((⟨[("c", "9")], [("c", 0)]⟩ : RawMap).insert k v).isSome) ∧
      (∀ (k : Key) (i : Nat),
        cacheGet (⟨[("c", "9")], [("c", 0)]⟩ : RawMap).cache k = some i →
          ((⟨[("c", "9")], [("c", 0)]⟩ : RawMap).data.get? i).isSome)) := by
  have hre : RawMap.Reachable (⟨[("c", "9")], [("c", 0)]⟩ : RawMap) :=
    RawMap.Reachable.insert RawMap.Reachable.empty rfl
  exact ⟨hre, claim_C10_cache_indices_in_bounds hre⟩

/-- Claim C4: building a map from the JSON object fragment whose members are,
in source order, a:1 then b:[1,2] then a:3 succeeds with two entries,
iterated as (a, 3) then (b, [1,2]): the duplicate key a keeps the position of
its first occurrence and the value of its last occurrence. -/
theorem claim_C4_duplicate_key_construction :
    ∃ m : RawMap,
      RawMap.from_raw_value [("a", "1"), ("b", "[1,2]"), ("a", "3")] = some m ∧
      m.len = 2 ∧ m.as_slice = [("a", "3"), ("b", "[1,2]")] := by
  refine ⟨⟨[("a", "3"), ("b", "[1,2]")], [("a", 0), ("b", 1)]⟩, ?_, rfl, rfl⟩
  decide

/-- Claim C5: for every map and key, the frozen view's `get` and `get_index`
return exactly what the map's `get` and `get_index` return. -/
theorem claim_C5_frozen_lookup_agrees (m : RawMap) (k : Key) :
    m.freeze.get k = m.get k ∧ m.freeze.get_index k = m.get_index k :=
  ⟨rfl, rfl⟩

/-- Claim C6: `freeze()` produces a view whose length and contents equal the
map's at the moment of freezing; the view is a pure snapshot of the data and
cache, so nothing reachable from it mutates the underlying map. -/
theorem claim_C6_freeze_snapshot (m : RawMap) :
    m.freeze.len = m.len ∧ m.freeze.as_slice = m.as_slice ∧
    m.freeze.is_empty = m.is_empty ∧ m.freeze = ⟨m.as_slice, m.cache⟩ :=
  ⟨rfl, rfl, rfl, rfl⟩

/-! ### Position stability under insertion of fresh keys -/

theorem applyInserts_fresh_stable (ops : List (Key × RawValue)) :
    ∀ m : RawMap, (∀ kv ∈ ops, cacheGet m.cache kv.1 = none) →
      (ops.map Prod.fst).Nodup →
      ∃ m' : RawMap, applyInserts m ops = some m' ∧
        ∀ (k : Key) (p : Nat),
          cacheGet m.cache k = some p → cacheGet m'.cache k = some p := by
  induction ops with
  | nil => exact fun m _ _ => ⟨m, rfl, fun k p h => h⟩
  | cons op rest ih =>
    intro m hfresh hnd
    obtain ⟨k, v⟩ := op
    have hck : cacheGet m.cache k = none := hfresh (k, v) (List.mem_cons_self _ _)
    have hins := RawMap.insert_vacant v hck
    have hnd2 : (k :: rest.map Prod.fst).Nodup := by simpa using hnd
    have hknotin : k ∉ rest.map Prod.fst := (List.nodup_cons.mp hnd2).1
    have hfresh2 : ∀ kv ∈ rest,
        cacheGet (m.cache ++ [(k, m.data.length)]) kv.1 = none := by
      intro kv hkv
      have h0 : cacheGet m.cache kv.1 = none := hfresh kv (List.mem_cons_of_mem _ hkv)
      have hne : k ≠ kv.1 := fun he => hknotin (he ▸ List.mem_map_of_mem Prod.fst hkv)
      exact cacheGet_append_single_ne h0 hne m.data.length
    obtain ⟨m', h1, h2⟩ :=
      ih ⟨m.data ++ [(k, v)], m.cache ++ [(k, m.data.length)]⟩ hfresh2
        (List.nodup_cons.mp hnd2).2
    refine ⟨m', ?_, ?_⟩
    · simp only [applyInserts, hins]
      exact h1
    · intro k2 p hk2
      exact h2 k2 p (cacheGet_append_some hk2 _)

/-- Claim C9: after `reserve(n)` on a reachable map, inserting up to `n`
distinct keys that are not yet present leaves `get_index` unchanged on every
previously present key: previously returned positions stay stable. -/
theorem claim_C9_reserve_position_stability {m : RawMap} (n : Nat)
    (hre : m.Reachable) (ops : List (Key × RawValue)) (hlen : ops.length ≤ n)
    (hnd : (ops.map Prod.fst).Nodup)
    (hfresh : ∀ kv ∈ ops, m.get_index kv.1 = none) :
    ∃ m' : RawMap, applyInserts (m.reserve n) ops = some m' ∧
      ∀ (k : Key) (p : Nat), m.get_index k = some p → m'.get_index k = some p := by
  obtain ⟨m', h1, h2⟩ := applyInserts_fresh_stable ops m hfresh hnd
  exact ⟨m', h1, h2⟩

/-- Witness for claim C9: one-entry reachable map, reserve 1, one fresh key. -/
theorem claim_C9_reserve_position_stability_witness :
    RawMap.Reachable (⟨[("d", "4")], [("d", 0)]⟩ : RawMap) ∧
    [(("e" : Key), ("5" : RawValue))].length ≤ 1 ∧
    ([(("e" : Key), ("5" : RawValue))].map Prod.fst).Nodup ∧
    (∀ kv ∈ [(("e" : Key), ("5" : RawValue))],
      (⟨[("d", "4")], [("d", 0)]⟩ : RawMap).get_index kv.1 = none) ∧
    (∃ m' : RawMap,
      applyInserts ((⟨[("d", "4")], [("d", 0)]⟩ : RawMap).reserve 1)
        [("e", "5")] = some m' ∧
      ∀ (k : Key) (p : Nat),
        (⟨[("d", "4")], [("d", 0)]⟩ : RawMap).get_index k = some p →
          m'.get_index k = some p) := by
  have hre : RawMap.Reachable (⟨[("d", "4")], [("d", 0)]⟩ : RawMap) :=
    RawMap.Reachable.insert RawMap.Reachable.empty rfl
  refine ⟨hre, by decide, by decide, by decide, ?_⟩
  exact claim_C9_reserve_position_stability 1 hre [("e", "5")]
    (by decide) (by decide) (by decide)
